import Mathlib

/-!
Verification of the OpenRouter streaming provider (`openRouterProvider` in the
repository's API module): the SSE frame decoder inside `streamResponse`'s read
loop, the per-event delta dispatch, the retry loop, `handleApiError`,
`prepareApiKey`, and `transformMessagesForCaching`.

Conventions of the embedding:
* Network reads are values of `List Char`: the repository decodes each read
  with `TextDecoder("utf-8", {stream: true})`, which reassembles UTF-8
  sequences split across reads, so the byte stream is faithfully modelled as
  a stream of characters split at arbitrary character boundaries.
* `JSON.parse` plus the field extraction
  `parsed.choices?.[0]?.delta?.{content,reasoning}` / `parsed.usage` is kept
  abstract as a function `parse : List Char → Option Delta`; `none` models a
  payload on which `JSON.parse` throws (the `catch` ignores it).
* Callbacks are recorded as an ordered trace of `CbEvent`s.
-/

/-- State of the event accumulator of `streamResponse`'s line loop:
`eventDataParts` (the pending `data:` fields) and `receivedDone`. -/
structure EvState where
  parts : List (List Char)
  receivedDone : Bool
deriving DecidableEq, Repr

/-- The characters of the literal `'data:'`. -/
def dataColon : List Char := ['d', 'a', 't', 'a', ':']

/-- The characters of the literal `'data: '`. -/
def dataColonSp : List Char := ['d', 'a', 't', 'a', ':', ' ']

/-- The characters of the terminator literal `'[DONE]'`. -/
def doneLit : List Char := ['[', 'D', 'O', 'N', 'E', ']']

/-- `startsWithL p s` models JavaScript `s.startsWith(p)`. -/
def startsWithL : List Char → List Char → Bool
  | [], _ => true
  | _ :: _, [] => false
  | p :: ps, c :: cs => p == c && startsWithL ps cs

/-- `joinNL parts` models `eventDataParts.join('\n')`. -/
def joinNL : List (List Char) → List Char
  | [] => []
  | [p] => p
  | p :: ps => p ++ '\n' :: joinNL ps

/-- Models `if (line.endsWith('\r')) line = line.slice(0, -1)`. -/
def stripCR (l : List Char) : List Char :=
  if l.getLast? = some '\r' then l.dropLast else l

/-- One complete line of the read loop of `streamResponse`: a blank line
dispatches the accumulated event (the payload `[DONE]` sets `receivedDone`
instead of emitting), a `:` line is a keep-alive comment, a `data:` line
appends its value (dropping `'data: '` or `'data:'`), anything else
(`event:`, `id:`, `retry:` fields) is ignored.  Returns the next state and
the payloads dispatched by this line. -/
def procLine (ev : EvState) (rawLine : List Char) : EvState × List (List Char) :=
  let line := stripCR rawLine
  if line = [] then
    if ev.parts = [] then (ev, [])
    else
      let dataStr := joinNL ev.parts
      if dataStr = doneLit then ({ parts := [], receivedDone := true }, [])
      else ({ parts := [], receivedDone := ev.receivedDone }, [dataStr])
  else if line.head? = some ':' then (ev, [])
  else if startsWithL dataColon line then
    let v := if startsWithL dataColonSp line then line.drop 6 else line.drop 5
    ({ ev with parts := ev.parts ++ [v] }, [])
  else (ev, [])

/-- The inner loop of `streamResponse` over `buffer`: complete lines (up to
each `'\n'`) are processed, the trailing partial line `cur` stays buffered.
After the `[DONE]` dispatch the loop `break`s with `done = true`, so the rest
of the buffer is discarded (the remainder is normalised to `[]`; the source
never reads it again). -/
def scanChars : EvState → List Char → List Char → EvState × List Char × List (List Char)
  | ev, cur, [] => (ev, cur, [])
  | ev, cur, c :: cs =>
    if c = '\n' then
      let p := procLine ev cur
      if p.1.receivedDone then (p.1, [], p.2)
      else
        let q := scanChars p.1 [] cs
        (q.1, q.2.1, p.2 ++ q.2.2)
    else scanChars ev (cur ++ [c]) cs

/-- Decoder state across reads: the event accumulator plus the buffered
partial line (the `buffer` variable after line extraction). -/
structure DecState where
  ev : EvState
  buffer : List Char
deriving DecidableEq, Repr

/-- The decoder state at `let buffer = ''` / `let eventDataParts = []`. -/
def initDec : DecState := ⟨⟨[], false⟩, []⟩

/-- One `reader.read()` delivering `chunk`: the loop guard `!done` skips the
read once the terminator was decoded; otherwise `buffer += chunk` and all
complete lines are processed. -/
def feedChunk (st : DecState) (chunk : List Char) : DecState × List (List Char) :=
  if st.ev.receivedDone then (st, [])
  else
    let r := scanChars st.ev st.buffer chunk
    (⟨r.1, r.2.1⟩, r.2.2)

/-- The whole read loop over a list of reads, collecting dispatched payloads
in order. -/
def feedChunks : DecState → List (List Char) → DecState × List (List Char)
  | st, [] => (st, [])
  | st, c :: cs =>
    let r := feedChunk st c
    let s := feedChunks r.1 cs
    (s.1, r.2 ++ s.2)

lemma scanChars_nil (ev : EvState) (cur : List Char) :
    scanChars ev cur [] = (ev, cur, []) := rfl

lemma scanChars_append (a : List Char) :
    ∀ (ev : EvState) (cur b : List Char), ev.receivedDone = false →
      scanChars ev cur (a ++ b) =
        (let r := scanChars ev cur a
         if r.1.receivedDone then r
         else
           let s := scanChars r.1 r.2.1 b
           (s.1, s.2.1, r.2.2 ++ s.2.2)) := by
  induction a with
  | nil =>
    intro ev cur b hev
    simp [scanChars, hev]
  | cons c a ih =>
    intro ev cur b hev
    by_cases hc : c = '\n'
    · subst hc
      by_cases hd : (procLine ev cur).1.receivedDone
      · simp [scanChars, hd]
      · have hd' : (procLine ev cur).1.receivedDone = false := by
          simpa using hd
        have key := ih (procLine ev cur).1 [] b hd'
        simp only [List.cons_append]
        simp only [scanChars, if_pos rfl, hd', Bool.false_eq_true, if_false, key]
        by_cases he : (scanChars (procLine ev cur).1 [] a).1.receivedDone
        · simp [he]
        · simp [he, List.append_assoc]
    · simp only [List.cons_append, scanChars, if_neg hc]
      exact ih _ _ _ hev

lemma feedChunk_nil (st : DecState) : feedChunk st [] = (st, []) := by
  by_cases h : st.ev.receivedDone
  · simp [feedChunk, h]
  · simp [feedChunk, h, scanChars]

lemma feedChunk_done {st : DecState} (c : List Char)
    (h : st.ev.receivedDone = true) : feedChunk st c = (st, []) := by
  simp [feedChunk, h]

lemma feedChunks_done {st : DecState} (cs : List (List Char))
    (h : st.ev.receivedDone = true) : feedChunks st cs = (st, []) := by
  induction cs with
  | nil => rfl
  | cons c cs ih => simp [feedChunks, feedChunk_done c h, ih]

/-- One read of `a ++ b` decodes exactly what the two reads `a` then `b`
decode, final state included. -/
lemma feedChunk_append (st : DecState) (a b : List Char) :
    feedChunk st (a ++ b) =
      (let r := feedChunk st a
       let s := feedChunk r.1 b
       (s.1, r.2 ++ s.2)) := by
  by_cases h : st.ev.receivedDone
  · simp [feedChunk, h]
  · have h' : st.ev.receivedDone = false := by simpa using h
    simp only [feedChunk, h', Bool.false_eq_true, if_false]
    rw [scanChars_append _ _ _ _ h']
    by_cases he : (scanChars st.ev st.buffer a).1.receivedDone
    · simp [he, feedChunk]
    · simp [he, feedChunk]

/-- Reading a list of chunks decodes exactly what reading their concatenation
in one chunk decodes, final state included. -/
lemma feedChunks_join (cs : List (List Char)) :
    ∀ st : DecState, feedChunks st cs = feedChunk st cs.flatten := by
  induction cs with
  | nil =>
    intro st
    simp [feedChunks, feedChunk_nil]
  | cons c cs ih =>
    intro st
    simp only [feedChunks, List.flatten_cons]
    rw [ih, feedChunk_append]

/-!
## Delta interpretation and the success path of one attempt

`JSON.parse` together with the optional-chaining extraction of
`choices?.[0]?.delta?.content`, `choices?.[0]?.delta?.reasoning` and `usage`
is abstracted as `parse : List Char → Option Delta`; `none` models a payload
on which `JSON.parse` throws (silently ignored by the source's `catch`).
-/

/-- The fields `streamResponse` extracts from one parsed event. -/
structure Delta where
  content : Option (List Char)
  reasoning : Option (List Char)
  usage : Option Nat
deriving DecidableEq, Repr

/-- One observable callback of `streamResponse`, in delivery order.
`userAborted` is not a callback: it is an instrumentation marker recording
the moment the caller's `controller.abort()` is observed, used to state
temporal properties. -/
inductive CbEvent where
  | controller
  | chunk (c : List Char)
  | reasoningChunk (r : List Char)
  | usage (u : Nat)
  | complete
  | error (msg : String)
  | delayed (ms : Nat)
  | userAborted
deriving DecidableEq, Repr

/-- Callbacks fired for one parsed event: `onReasoningChunk` when the
reasoning delta is truthy (a nonempty string), then `onChunk` when the
content delta is truthy. -/
def dispatchDelta (d : Delta) : List CbEvent :=
  (match d.reasoning with
   | some r => if r = [] then [] else [CbEvent.reasoningChunk r]
   | none => []) ++
  (match d.content with
   | some c => if c = [] then [] else [CbEvent.chunk c]
   | none => [])

/-- Processing of the dispatched payloads in order, threading `finalUsage`
(`if (parsed.usage) finalUsage = parsed.usage` keeps only the last one). -/
def runPayloads (parse : List Char → Option Delta) :
    List (List Char) → Option Nat → List CbEvent × Option Nat
  | [], u => ([], u)
  | p :: ps, u =>
    match parse p with
    | none => runPayloads parse ps u
    | some d =>
      let r := runPayloads parse ps
        (match d.usage with | some x => some x | none => u)
      (dispatchDelta d ++ r.1, r.2)

/-- The payloads the decoder dispatches for a list of reads. -/
def sessionPayloads (cs : List (List Char)) : List (List Char) :=
  (feedChunks initDec cs).2

/-- Whether the terminator `[DONE]` was decoded in these reads. -/
def sessionDone (cs : List (List Char)) : Bool :=
  (feedChunks initDec cs).1.ev.receivedDone

/-- The callback trace of one attempt whose body delivers `chunks` and then
ends (either because `[DONE]` was decoded or because the reader reported the
clean end of the body): the per-event callbacks, then `onUsage` with the
last-seen usage snapshot if any, then `onComplete`. -/
def runBodyOk (parse : List Char → Option Delta) (chunks : List (List Char)) :
    List CbEvent :=
  let r := runPayloads parse (sessionPayloads chunks) none
  r.1 ++ (match r.2 with | some u => [CbEvent.usage u] | none => []) ++
    [CbEvent.complete]

/-- The arguments of the `onChunk` calls of a trace, in order. -/
def chunkArgsOf (evs : List CbEvent) : List (List Char) :=
  evs.filterMap (fun e => match e with | CbEvent.chunk c => some c | _ => none)

/-- The content deltas carried by a list of payloads: for each payload that
parses, its `choices[0].delta.content` field when present. -/
def contentDeltas (parse : List Char → Option Delta) (ps : List (List Char)) :
    List (List Char) :=
  ps.filterMap (fun p => (parse p).bind (fun d => d.content))

lemma chunkArgsOf_append (a b : List CbEvent) :
    chunkArgsOf (a ++ b) = chunkArgsOf a ++ chunkArgsOf b := by
  simp [chunkArgsOf]

lemma chunkArgsOf_dispatchDelta (d : Delta) :
    chunkArgsOf (dispatchDelta d) =
      (match d.content with
       | some c => if c = [] then [] else [c]
       | none => []) := by
  rcases d with ⟨c, r, u⟩
  rcases r with _ | r
  · rcases c with _ | c
    · simp [dispatchDelta, chunkArgsOf]
    · by_cases hc : c = [] <;> simp [dispatchDelta, chunkArgsOf, hc]
  · rcases c with _ | c
    · by_cases hr : r = [] <;> simp [dispatchDelta, chunkArgsOf, hr]
    · by_cases hr : r = [] <;> by_cases hc : c = [] <;>
      simp [dispatchDelta, chunkArgsOf, hr, hc]

lemma chunkArgsOf_runPayloads (parse : List Char → Option Delta)
    (ps : List (List Char)) : ∀ u : Option Nat,
    chunkArgsOf (runPayloads parse ps u).1 =
      (contentDeltas parse ps).filter (fun c => !c.isEmpty) := by
  induction ps with
  | nil => intro u; simp [runPayloads, contentDeltas, chunkArgsOf]
  | cons p ps ih =>
    intro u
    rcases hp : parse p with _ | d
    · simp [runPayloads, hp, contentDeltas, ih]
    · simp only [runPayloads, hp, chunkArgsOf_append, chunkArgsOf_dispatchDelta,
        contentDeltas, List.filterMap_cons, Option.some_bind, ih]
      rcases hc : d.content with _ | c
      · simp [contentDeltas]
      · rcases c with _ | ⟨x, c⟩ <;> simp [contentDeltas]

lemma flatten_filter_nonempty (l : List (List Char)) :
    (l.filter (fun c => !c.isEmpty)).flatten = l.flatten := by
  induction l with
  | nil => rfl
  | cons c l ih => rcases c with _ | ⟨x, c⟩ <;> simp [ih]

/-- C1: for every partition of the stream into reads, the decoded events are
those of the undivided stream (`feedChunks`/`feedChunk` over `flatten`, final
state included), and the `onChunk` arguments are exactly the nonempty content
deltas in order, so their concatenation equals the concatenation of all
content deltas carried by the stream: no reordering, no loss, no
duplication. -/
theorem sse_split_invariance_and_chunk_concat
    (parse : List Char → Option Delta) (cs : List (List Char)) :
    feedChunks initDec cs = feedChunk initDec cs.flatten
    ∧ chunkArgsOf (runBodyOk parse cs) =
        (contentDeltas parse (sessionPayloads cs)).filter (fun c => !c.isEmpty)
    ∧ (chunkArgsOf (runBodyOk parse cs)).flatten =
        (contentDeltas parse (sessionPayloads cs)).flatten := by
  refine ⟨feedChunks_join cs initDec, ?_, ?_⟩
  · simp only [runBodyOk, chunkArgsOf_append, chunkArgsOf_runPayloads]
    rcases (runPayloads parse (sessionPayloads cs) none).2 with _ | u <;>
      simp [chunkArgsOf]
  · simp only [runBodyOk, chunkArgsOf_append, chunkArgsOf_runPayloads]
    rcases (runPayloads parse (sessionPayloads cs) none).2 with _ | u <;>
      simp [chunkArgsOf, flatten_filter_nonempty]

/-!
## The attempt loop of `streamResponse`

`streamResponse` runs `while (retries <= MAX_RETRIES && !aborted)`.  Each
iteration makes a new `AbortController`, hands it to `onController`, issues
the request and drains the body.  The local `aborted` flag is set **only** by
the inactivity watchdog (which also calls `onError` directly); a caller
abort merely makes the pending `fetch`/`read` reject with an `AbortError`,
which the `catch` treats like any other failure.  The outcome of one attempt
is scripted by an `AttemptSpec`; `specs n` is the outcome of the attempt ran
with `retries = n`.
-/

/-- `MAX_RETRIES` of the source. -/
def MAX_RETRIES : Nat := 2

/-- `RETRY_DELAY` of the source (milliseconds). -/
def RETRY_DELAY : Nat := 1000

/-- The message of the watchdog's stall error. -/
def stallMsg : String := "Stream stalled (no data for 45s)"

/-- The message standing for the `AbortError` a caller abort makes the
pending `fetch`/`read` reject with. -/
def abortErrMsg : String := "AbortError"

/-- `handleApiError` for a non-2xx response of the given status:
`jsonMsg` is `data?.error?.message` when the body text parses as JSON and
that field is truthy, else `none`; the fallback is
`Error: {status} {statusText}`.  Returns the thrown error's message. -/
def handleApiError (status : Nat) (jsonMsg : Option String)
    (statusText : String) : String :=
  let msg := match jsonMsg with
    | some m => m
    | none => "Error: " ++ toString status ++ " " ++ statusText
  if status = 401 then "Authentication failed: Invalid API key."
  else if status = 429 then "Rate limit exceeded. Please try again later."
  else msg

/-- The scripted outcome of one attempt of the loop. -/
inductive AttemptSpec where
  /-- `fetch` rejects with a network error carrying `msg`. -/
  | netFail (msg : String)
  /-- The caller aborts the controller while `fetch` is pending. -/
  | userAbortFetch
  /-- No line arrives for 45 s: the watchdog sets `aborted`, aborts the
  controller and calls `onError` with the stall error. -/
  | stall
  /-- A non-2xx response: `handleApiError` throws. -/
  | http (status : Nat) (jsonMsg : Option String) (statusText : String)
  /-- A 2xx response whose `body` is `null`. -/
  | noBody
  /-- A 2xx streaming body delivering `chunks`; `abortAfter = some k` means
  the caller aborts after the k-th read, making the next read reject. -/
  | stream (chunks : List (List Char)) (abortAfter : Option Nat)

/-- How one attempt left the loop. -/
inductive AttemptExit where
  /-- `onComplete` ran and `streamResponse` returned. -/
  | completed
  /-- The watchdog set `aborted`: the `catch` returns silently. -/
  | watchdogAborted
  /-- An exception with the given message reached the `catch` with
  `aborted` still false. -/
  | thrown (msg : String)
deriving DecidableEq, Repr

/-- The callback trace of one attempt and how it exited. -/
def runAttempt (parse : List Char → Option Delta) (spec : AttemptSpec) :
    List CbEvent × AttemptExit :=
  match spec with
  | .netFail msg => ([], .thrown msg)
  | .userAbortFetch => ([CbEvent.userAborted], .thrown abortErrMsg)
  | .stall => ([CbEvent.error stallMsg], .watchdogAborted)
  | .http status jsonMsg statusText =>
    ([], .thrown (handleApiError status jsonMsg statusText))
  | .noBody => ([], .thrown "Response body is null")
  | .stream chunks abortAfter =>
    match abortAfter with
    | none => (runBodyOk parse chunks, .completed)
    | some k =>
      let pre := chunks.take k
      if sessionDone pre then
        -- the terminator was decoded before the abort: the read loop had
        -- already exited and the attempt completed
        (runBodyOk parse chunks, .completed)
      else
        ((runPayloads parse (sessionPayloads pre) none).1 ++
          [CbEvent.userAborted], .thrown abortErrMsg)

/-- The retry loop of `streamResponse`, from a given `retries` value.  The
`catch` is `if (aborted) return; if (retries >= MAX_RETRIES) { onError(err);
return; } retries++; await delay(RETRY_DELAY * retries);`.  `fuel` bounds
the iterations; `MAX_RETRIES + 1` is enough from `retries = 0`. -/
def streamAttempts (parse : List Char → Option Delta)
    (specs : Nat → AttemptSpec) : Nat → Nat → List CbEvent
  | 0, _ => []
  | fuel + 1, retries =>
    if retries ≤ MAX_RETRIES then
      let r := runAttempt parse (specs retries)
      CbEvent.controller :: r.1 ++
        (match r.2 with
         | .completed => []
         | .watchdogAborted => []
         | .thrown msg =>
           if MAX_RETRIES ≤ retries then [CbEvent.error msg]
           else CbEvent.delayed (RETRY_DELAY * (retries + 1)) ::
             streamAttempts parse specs fuel (retries + 1))
    else []

lemma feedChunks_append (cs ds : List (List Char)) :
    ∀ st : DecState, feedChunks st (cs ++ ds) =
      (let r := feedChunks st cs
       let s := feedChunks r.1 ds
       (s.1, r.2 ++ s.2)) := by
  induction cs with
  | nil => intro st; simp [feedChunks]
  | cons c cs ih =>
    intro st
    simp only [List.cons_append, feedChunks, List.append_eq]
    rw [ih]
    simp [List.append_assoc]

lemma sessionPayloads_append_of_done {cs : List (List Char)}
    (ds : List (List Char)) (h : sessionDone cs = true) :
    sessionPayloads (cs ++ ds) = sessionPayloads cs := by
  have := feedChunks_append cs ds initDec
  simp only [sessionPayloads, sessionDone] at *
  rw [this, feedChunks_done ds h]
  simp

lemma sessionPayloads_single_flatten (cs : List (List Char)) :
    sessionPayloads [cs.flatten] = sessionPayloads cs := by
  simp only [sessionPayloads]
  have h1 : feedChunks initDec [cs.flatten] = feedChunk initDec cs.flatten := by
    simp [feedChunks]
  rw [h1, ← feedChunks_join]

/-- C2: once the `[DONE]` terminator has been decoded, any further data —
whether it arrives as later reads (`ds`) or was already sitting in the same
received buffer (the single read `(cs ++ ds).flatten`) — changes nothing: no
further `onChunk`/`onReasoningChunk` fires and the attempt completes with the
same trace.  The trace of a body that ends cleanly (with or without the
terminator) always ends in `onComplete`, preceded by `onUsage` with the
last-seen usage snapshot when one was decoded. -/
theorem terminator_or_clean_end_completes
    (parse : List Char → Option Delta) (cs ds : List (List Char))
    (h : sessionDone cs = true) :
    runBodyOk parse (cs ++ ds) = runBodyOk parse cs
    ∧ runBodyOk parse [(cs ++ ds).flatten] = runBodyOk parse cs
    ∧ (runBodyOk parse cs).getLast? = some CbEvent.complete
    ∧ (∀ u, (runPayloads parse (sessionPayloads cs) none).2 = some u →
        (runBodyOk parse cs).dropLast.getLast? = some (CbEvent.usage u)) := by
  have h1 : runBodyOk parse (cs ++ ds) = runBodyOk parse cs := by
    simp [runBodyOk, sessionPayloads_append_of_done ds h]
  refine ⟨h1, ?_, ?_, ?_⟩
  · have h2 : runBodyOk parse [(cs ++ ds).flatten] = runBodyOk parse (cs ++ ds) := by
      simp only [runBodyOk, sessionPayloads_single_flatten]
    rw [h2, h1]
  · simp [runBodyOk]
  · intro u hu
    simp [runBodyOk, hu]

/-- Witness for C2 at a concrete input: the single read `data: [DONE]\n\n`
decodes the terminator, and a later read carrying a complete event is
ignored — the trace is just `onComplete`. -/
theorem terminator_or_clean_end_completes_witness :
    sessionDone ["data: [DONE]\n\n".data] = true
    ∧ runBodyOk (fun _ => none)
        ("data: [DONE]\n\n".data :: ["data: px1\n\n".data]) =
      runBodyOk (fun _ => none) ["data: [DONE]\n\n".data]
    ∧ runBodyOk (fun _ => none) ["data: [DONE]\n\n".data] =
        [CbEvent.complete] :=
  ⟨by decide,
   (terminator_or_clean_end_completes (fun _ => none)
     ["data: [DONE]\n\n".data] ["data: px1\n\n".data] (by decide)).1,
   by decide⟩

/-- Test interpretation of payloads: `px1` parses to a content delta `X`,
everything else fails to parse. -/
def parseDemo : List Char → Option Delta := fun p =>
  if p = "px1".data then some ⟨some ['X'], none, none⟩ else none

/-- Script: the caller aborts the controller during the first attempt's
`fetch`; the second attempt streams one content event and ends. -/
def specsCancelled : Nat → AttemptSpec := fun n =>
  if n = 0 then AttemptSpec.userAbortFetch
  else AttemptSpec.stream ["data: px1\n\n".data] none

/-- C3: contrary to the claim, a caller-initiated abort is *not* terminal:
the `AbortError` reaches the `catch` with the `aborted` flag still false
(only the watchdog sets it), so the request is re-issued after the backoff
delay and callbacks keep flowing — here `onChunk` and `onComplete` are
delivered after the cancellation was observed.  When cancellation hits every
attempt, the exhausted budget even surfaces the `AbortError` via `onError`. -/
theorem cancelled_attempt_is_retried :
    streamAttempts parseDemo specsCancelled (MAX_RETRIES + 2) 0 =
      [CbEvent.controller, CbEvent.userAborted, CbEvent.delayed 1000,
       CbEvent.controller, CbEvent.chunk ['X'], CbEvent.complete]
    ∧ streamAttempts parseDemo (fun _ => AttemptSpec.userAbortFetch)
        (MAX_RETRIES + 2) 0 =
      [CbEvent.controller, CbEvent.userAborted, CbEvent.delayed 1000,
       CbEvent.controller, CbEvent.userAborted, CbEvent.delayed 2000,
       CbEvent.controller, CbEvent.userAborted,
       CbEvent.error abortErrMsg] := by
  constructor <;> decide

/-- Predicate: the trace event is an `onError` call. -/
def isErrorEv : CbEvent → Bool
  | CbEvent.error _ => true
  | _ => false

/-- Predicate: the trace event is a retry-backoff delay. -/
def isDelayEv : CbEvent → Bool
  | CbEvent.delayed _ => true
  | _ => false

/-- Counterexample for C4: with every response a 401, the request is issued
three times (three `onController` hand-outs) with backoff delays between
them, and the authentication error surfaces only after the retry budget is
exhausted — not immediately after a single issue. -/
theorem auth_error_retried_counterexample :
    streamAttempts (fun _ => none) (fun _ => AttemptSpec.http 401 none "Unauthorized")
        (MAX_RETRIES + 1) 0 =
      [CbEvent.controller, CbEvent.delayed 1000, CbEvent.controller,
       CbEvent.delayed 2000, CbEvent.controller,
       CbEvent.error "Authentication failed: Invalid API key."]
    ∧ (streamAttempts (fun _ => none)
        (fun _ => AttemptSpec.http 401 none "Unauthorized")
        (MAX_RETRIES + 1) 0).count CbEvent.controller = 3 := by
  constructor <;> decide

/-- C4 (amended): `handleApiError` classifies a 401 as
`Authentication failed: Invalid API key.`, a 429 as the rate-limit message,
and any other non-2xx as the server-provided JSON `error.message` when
present, else `Error: {status} {statusText}`; but every non-2xx error,
401 and 429 included, goes through the generic retry loop: the request is
issued `MAX_RETRIES + 1 = 3` times and the classified error surfaces (once)
only after the budget is exhausted. -/
theorem http_errors_classified_but_retried
    (parse : List Char → Option Delta) (status : Nat)
    (jsonMsg : Option String) (statusText : String) :
    streamAttempts parse (fun _ => AttemptSpec.http status jsonMsg statusText)
        (MAX_RETRIES + 1) 0 =
      [CbEvent.controller, CbEvent.delayed 1000, CbEvent.controller,
       CbEvent.delayed 2000, CbEvent.controller,
       CbEvent.error (handleApiError status jsonMsg statusText)]
    ∧ handleApiError 401 jsonMsg statusText =
        "Authentication failed: Invalid API key."
    ∧ handleApiError 429 jsonMsg statusText =
        "Rate limit exceeded. Please try again later."
    ∧ (status ≠ 401 → status ≠ 429 →
        handleApiError status jsonMsg statusText =
          (match jsonMsg with
           | some m => m
           | none => "Error: " ++ toString status ++ " " ++ statusText)) := by
  refine ⟨?_, by simp [handleApiError], by simp [handleApiError], ?_⟩
  · simp [streamAttempts, runAttempt, MAX_RETRIES, RETRY_DELAY]
  · intro h1 h2
    simp [handleApiError, h1, h2]

/-- Counterexample for C5: a stalled first attempt yields exactly one
controller hand-out, no backoff delay, and the stall error surfaces
immediately — the stalled request is never re-attempted. -/
theorem stall_retry_counterexample :
    streamAttempts (fun _ => none) (fun _ => AttemptSpec.stall)
        (MAX_RETRIES + 1) 0 = [CbEvent.controller, CbEvent.error stallMsg]
    ∧ (streamAttempts (fun _ => none) (fun _ => AttemptSpec.stall)
        (MAX_RETRIES + 1) 0).count CbEvent.controller = 1
    ∧ (streamAttempts (fun _ => none) (fun _ => AttemptSpec.stall)
        (MAX_RETRIES + 1) 0).filter isDelayEv = [] := by
  refine ⟨by decide, by decide, by decide⟩

/-- C5 (amended): when no line arrives for the 45-second watchdog interval,
the watchdog sets the `aborted` flag, aborts the connection and calls
`onError` with the stall error at once; since `aborted` suppresses both the
loop guard and the `catch`, no retry happens — whatever later attempts would
have done. -/
theorem stall_errors_immediately_without_retry
    (parse : List Char → Option Delta) (rest : Nat → AttemptSpec) :
    streamAttempts parse
        (fun n => if n = 0 then AttemptSpec.stall else rest n)
        (MAX_RETRIES + 1) 0 =
      [CbEvent.controller, CbEvent.error stallMsg] := by
  simp [streamAttempts, runAttempt, MAX_RETRIES]

/-- C6: three consecutive network failures exhaust the retry budget
(`MAX_RETRIES = 2`): the request is issued three times, the delay before
retry attempt `k` is `RETRY_DELAY * k` (1000 ms then 2000 ms), and `onError`
fires exactly once, with the last failure — not once per attempt. -/
theorem network_retry_budget_single_error
    (parse : List Char → Option Delta) (m0 m1 m2 : String)
    (rest : Nat → AttemptSpec) :
    streamAttempts parse
        (fun n => if n = 0 then AttemptSpec.netFail m0
          else if n = 1 then AttemptSpec.netFail m1
          else if n = 2 then AttemptSpec.netFail m2 else rest n)
        (MAX_RETRIES + 1) 0 =
      [CbEvent.controller, CbEvent.delayed (RETRY_DELAY * 1),
       CbEvent.controller, CbEvent.delayed (RETRY_DELAY * 2),
       CbEvent.controller, CbEvent.error m2]
    ∧ (streamAttempts parse
        (fun n => if n = 0 then AttemptSpec.netFail m0
          else if n = 1 then AttemptSpec.netFail m1
          else if n = 2 then AttemptSpec.netFail m2 else rest n)
        (MAX_RETRIES + 1) 0).filter isErrorEv = [CbEvent.error m2] := by
  constructor
  · simp [streamAttempts, runAttempt, MAX_RETRIES, RETRY_DELAY]
  · simp [streamAttempts, runAttempt, MAX_RETRIES, RETRY_DELAY, isErrorEv]

/-!
## Malformed payloads (C8) and the encoded-event round trip
-/

/-- A payload as a wire event can carry it in one `data:` line: no line
break, no trailing-CR ambiguity, and not the terminator literal. -/
def goodPayload (p : List Char) : Prop :=
  '\n' ∉ p ∧ '\r' ∉ p ∧ p ≠ doneLit

/-- The wire encoding `data: <payload>\n\n` of one event. -/
def encodeEvent (p : List Char) : List Char :=
  dataColonSp ++ p ++ ['\n', '\n']

instance (p : List Char) : Decidable (goodPayload p) := by
  unfold goodPayload
  infer_instance

lemma getLast?_mem_of_eq : ∀ {l : List Char} {c : Char},
    l.getLast? = some c → c ∈ l := by
  intro l
  induction l with
  | nil => intro c h; simp at h
  | cons x xs ih =>
    intro c h
    cases xs with
    | nil => simp_all
    | cons y ys =>
      rw [List.getLast?_cons_cons] at h
      exact List.mem_cons_of_mem x (ih h)

lemma stripCR_of_not_mem {l : List Char} (h : '\r' ∉ l) : stripCR l = l := by
  rcases hl : l.getLast? with _ | c
  · simp [stripCR, hl]
  · have hc : c ∈ l := getLast?_mem_of_eq hl
    have : c ≠ '\r' := fun he => h (he ▸ hc)
    simp [stripCR, hl, Option.some_inj, this]

lemma scanChars_no_nl (a : List Char) :
    ∀ (ev : EvState) (cur b : List Char), '\n' ∉ a →
      scanChars ev cur (a ++ b) = scanChars ev (cur ++ a) b := by
  induction a with
  | nil => intro ev cur b _; simp
  | cons c a ih =>
    intro ev cur b h
    have hc : ¬c = '\n' := fun he => h (he ▸ List.mem_cons_self c a)
    have ha : '\n' ∉ a := fun hm => h (List.mem_cons_of_mem c hm)
    simp only [List.cons_append, scanChars, if_neg hc, List.append_eq]
    rw [ih _ _ _ ha]
    simp

/-- Feeding one well-formed encoded event from the initial state dispatches
exactly its payload and returns to the initial state. -/
lemma feedChunk_encode {p : List Char} (hp : goodPayload p) :
    feedChunk initDec (encodeEvent p) = (initDec, [p]) := by
  obtain ⟨hnl, hcr, hdone⟩ := hp
  have hnl2 : '\n' ∉ dataColonSp ++ p := by
    intro hm
    rcases List.mem_append.1 hm with hm | hm
    · simp [dataColonSp] at hm
    · exact hnl hm
  have hline : stripCR (dataColonSp ++ p) = dataColonSp ++ p := by
    refine stripCR_of_not_mem ?_
    intro hm
    rcases List.mem_append.1 hm with hm | hm
    · simp [dataColonSp] at hm
    · exact hcr hm
  have hproc1 : procLine ⟨[], false⟩ (dataColonSp ++ p) = (⟨[p], false⟩, []) := by
    have hdrop : (dataColonSp ++ p).drop 6 = p := List.drop_left' rfl
    have hsw1 : startsWithL dataColon (dataColonSp ++ p) = true := by
      simp [dataColon, dataColonSp, startsWithL]
    have hsw2 : startsWithL dataColonSp (dataColonSp ++ p) = true := by
      simp [dataColonSp, startsWithL]
    have hne : ¬(dataColonSp ++ p = []) := by simp [dataColonSp]
    have hh : ¬((dataColonSp ++ p).head? = some ':') := by simp [dataColonSp]
    simp only [procLine, hline]
    rw [if_neg hne, if_neg hh, if_pos hsw1, if_pos hsw2, hdrop]
    simp
  have hproc2 : procLine ⟨[p], false⟩ [] = (⟨[], false⟩, [p]) := by
    simp [procLine, stripCR, joinNL, hdone]
  have hmain : scanChars ⟨[], false⟩ [] (encodeEvent p) = (⟨[], false⟩, [], [p]) := by
    have he : encodeEvent p = (dataColonSp ++ p) ++ ['\n', '\n'] := by
      simp [encodeEvent, List.append_assoc]
    rw [he, scanChars_no_nl _ _ _ _ hnl2, List.nil_append]
    simp [scanChars, hproc1, hproc2]
  simp [feedChunk, initDec, hmain]

/-- Feeding a list of well-formed encoded events dispatches exactly the
payload list. -/
lemma feedChunks_encode {ps : List (List Char)}
    (h : ∀ p ∈ ps, goodPayload p) :
    feedChunks initDec (ps.map encodeEvent) = (initDec, ps) := by
  induction ps with
  | nil => rfl
  | cons p ps ih =>
    have hp : goodPayload p := h p (List.mem_cons_self p ps)
    have hps : ∀ q ∈ ps, goodPayload q := fun q hq => h q (List.mem_cons_of_mem p hq)
    simp [feedChunks, feedChunk_encode hp, ih hps]

lemma runPayloads_append (parse : List Char → Option Delta)
    (xs ys : List (List Char)) : ∀ u : Option Nat,
    runPayloads parse (xs ++ ys) u =
      (let r := runPayloads parse xs u
       let s := runPayloads parse ys r.2
       (r.1 ++ s.1, s.2)) := by
  induction xs with
  | nil => intro u; simp [runPayloads]
  | cons x xs ih =>
    intro u
    rcases hx : parse x with _ | d
    · simp only [List.cons_append, runPayloads, hx, ih, List.append_eq]
    · simp only [List.cons_append, runPayloads, hx, ih, List.append_assoc,
        List.append_eq]

/-- C8: a payload on which `JSON.parse` throws is silently skipped — no
callback fires for it, no error is raised, the last-seen usage is unchanged,
and the surrounding events are processed exactly as if the malformed payload
were absent; likewise for the full attempt over the wire encoding. -/
theorem malformed_payload_silently_skipped
    (parse : List Char → Option Delta) (p : List Char)
    (ps₁ ps₂ : List (List Char)) (u : Option Nat)
    (hp : parse p = none)
    (hgood : ∀ q ∈ ps₁ ++ p :: ps₂, goodPayload q) :
    runPayloads parse (ps₁ ++ p :: ps₂) u = runPayloads parse (ps₁ ++ ps₂) u
    ∧ runBodyOk parse ((ps₁ ++ p :: ps₂).map encodeEvent) =
        runBodyOk parse ((ps₁ ++ ps₂).map encodeEvent) := by
  have h1 : ∀ v : Option Nat,
      runPayloads parse (ps₁ ++ p :: ps₂) v = runPayloads parse (ps₁ ++ ps₂) v := by
    intro v
    rw [runPayloads_append, runPayloads_append]
    simp only [runPayloads, hp]
  refine ⟨h1 u, ?_⟩
  have hg1 : ∀ q ∈ ps₁ ++ ps₂, goodPayload q := by
    intro q hq
    rcases List.mem_append.1 hq with hq | hq
    · exact hgood q (List.mem_append.2 (Or.inl hq))
    · exact hgood q (List.mem_append.2 (Or.inr (List.mem_cons_of_mem p hq)))
  simp only [runBodyOk, sessionPayloads, feedChunks_encode hgood,
    feedChunks_encode hg1, h1 none]

/-- Witness for C8 at a concrete input: the unparsable payload `junk`
between two events changes nothing. -/
theorem malformed_payload_silently_skipped_witness :
    parseDemo "junk".data = none
    ∧ runPayloads parseDemo (["px1".data] ++ "junk".data :: ["px1".data]) none =
        runPayloads parseDemo (["px1".data] ++ ["px1".data]) none :=
  ⟨by decide,
   (malformed_payload_silently_skipped parseDemo "junk".data
     ["px1".data] ["px1".data] none (by decide) (by decide)).1⟩

/-!
## `prepareApiKey` and the Authorization header (C10)
-/

/-- JavaScript `toLowerCase` on the relevant ASCII range. -/
def lowerL (s : List Char) : List Char := s.map Char.toLower

/-- JavaScript `String.prototype.trim`: surrounding whitespace removed. -/
def trimL (s : List Char) : List Char :=
  ((s.dropWhile Char.isWhitespace).reverse.dropWhile Char.isWhitespace).reverse

/-- The characters of `'bearer '`. -/
def bearerSp : List Char := ['b', 'e', 'a', 'r', 'e', 'r', ' ']

/-- `prepareApiKey`: in proxy mode the key is unused (empty); otherwise an
empty key throws, the key is trimmed, and one leading case-insensitive
`Bearer ` prefix is removed (`cleanKey.slice(7)`). -/
def prepareApiKey (useProxy : Bool) (apiKey : List Char) :
    Except String (List Char) :=
  if useProxy then Except.ok []
  else if apiKey = [] then
    Except.error "API Key is required when not using proxy mode"
  else
    let cleanKey := trimL apiKey
    if startsWithL bearerSp (lowerL cleanKey) then Except.ok (cleanKey.drop 7)
    else Except.ok cleanKey

/-- The `Authorization` header of `streamResponse`/`sendMessage`: omitted
(`none`) in proxy mode, else `Bearer ${cleanApiKey}`. -/
def authHeader (useProxy : Bool) (apiKey : List Char) :
    Except String (Option (List Char)) :=
  (prepareApiKey useProxy apiKey).map
    (fun k => if useProxy then none else some ("Bearer ".data ++ k))

/-- `streamResponse` itself: `prepareApiKey` is its first statement, so a
throw happens before the controller hand-out and before any request. -/
def streamResponseModel (parse : List Char → Option Delta) (useProxy : Bool)
    (apiKey : List Char) (specs : Nat → AttemptSpec) :
    Except String (List CbEvent) :=
  match prepareApiKey useProxy apiKey with
  | Except.error e => Except.error e
  | Except.ok _ => Except.ok (streamAttempts parse specs (MAX_RETRIES + 1) 0)

lemma startsWithL_append_same (p : List Char) :
    ∀ q s : List Char, startsWithL (p ++ q) (p ++ s) = startsWithL q s := by
  induction p with
  | nil => intro q s; simp
  | cons c p ih => intro q s; simp [startsWithL, ih]

lemma startsWithL_eq_append (p : List Char) :
    ∀ s : List Char, startsWithL p s = true → s = p ++ s.drop p.length := by
  induction p with
  | nil => intro s _; simp
  | cons c p ih =>
    intro s h
    cases s with
    | nil => simp [startsWithL] at h
    | cons x xs =>
      simp only [startsWithL, Bool.and_eq_true, beq_iff_eq] at h
      obtain ⟨rfl, h2⟩ := h
      simpa using ih xs h2

lemma lowerL_append (a b : List Char) :
    lowerL (a ++ b) = lowerL a ++ lowerL b := by
  simp [lowerL]

lemma lowerL_drop (l : List Char) (n : Nat) :
    lowerL (l.drop n) = (lowerL l).drop n := by
  simp [lowerL, List.map_drop]

/-- Counterexample for C10: the stripping removes only one layer, so the
credential `Bearer Bearer k` yields the header value `Bearer Bearer k` —
a doubled `Bearer`. -/
theorem bearer_double_counterexample :
    authHeader false "Bearer Bearer k".data =
      Except.ok (some "Bearer Bearer k".data)
    ∧ startsWithL "Bearer Bearer ".data "Bearer Bearer k".data = true :=
  ⟨rfl, rfl⟩

/-- C10 (amended): with proxy mode off, an empty credential makes
`streamResponse` throw `API Key is required when not using proxy mode`
before any controller hand-out, callback or request; in proxy mode the
`Authorization` header is omitted; otherwise the credential is trimmed and
exactly one leading case-insensitive `Bearer ` prefix is stripped — so the
header only carries a doubled `Bearer` when the supplied credential itself
carried two such prefixes. -/
theorem api_key_preparation (parse : List Char → Option Delta)
    (specs : Nat → AttemptSpec) (key : List Char) :
    streamResponseModel parse false [] specs =
      Except.error "API Key is required when not using proxy mode"
    ∧ authHeader true key = Except.ok none
    ∧ (∀ k, prepareApiKey false key = Except.ok k →
        k = (if startsWithL bearerSp (lowerL (trimL key)) then
          (trimL key).drop 7 else trimL key))
    ∧ (startsWithL (bearerSp ++ bearerSp) (lowerL (trimL key)) = false →
        ∀ k, prepareApiKey false key = Except.ok k →
          startsWithL (bearerSp ++ bearerSp)
            (lowerL ("Bearer ".data ++ k)) = false) := by
  have hlow : lowerL "Bearer ".data = bearerSp := by decide
  have hlen : bearerSp.length = 7 := by decide
  refine ⟨by simp [streamResponseModel, prepareApiKey],
    by simp [authHeader, prepareApiKey, Except.map], ?_, ?_⟩
  · intro k hk
    by_cases hkey : key = []
    · simp [prepareApiKey, hkey] at hk
    · by_cases hb : startsWithL bearerSp (lowerL (trimL key)) = true
      · simp [prepareApiKey, hkey, hb] at hk
        simp [hb, hk.symm]
      · simp [prepareApiKey, hkey, hb] at hk
        simp [hb, hk.symm]
  · intro h14 k hk
    by_cases hkey : key = []
    · simp [prepareApiKey, hkey] at hk
    · by_cases hb : startsWithL bearerSp (lowerL (trimL key)) = true
      · simp [prepareApiKey, hkey, hb] at hk
        subst hk
        rw [lowerL_append, hlow, lowerL_drop, startsWithL_append_same]
        have hsplit := startsWithL_eq_append bearerSp (lowerL (trimL key)) hb
        rw [hlen] at hsplit
        rw [hsplit, startsWithL_append_same] at h14
        exact h14
      · simp [prepareApiKey, hkey, hb] at hk
        subst hk
        rw [lowerL_append, hlow, startsWithL_append_same]
        simpa using hb

/-!
## Prompt caching: `detectModelFamily` and `transformMessagesForCaching`
-/

/-- The `cache_control` object; the source only ever writes
`{ type: "ephemeral" }` (field renamed `ctype`: `type` is a keyword). -/
structure CacheControl where
  ctype : String
deriving DecidableEq, Repr

/-- The inserted annotation `{ type: "ephemeral" }`. -/
def ephemeralCC : CacheControl := ⟨"ephemeral"⟩

/-- One content part: a `TextPart` (`{ type: "text", text, cache_control? }`)
or any non-text part (e.g. an image part), which the transform only
shallow-copies. -/
inductive CPart where
  | text (text : List Char) (cache_control : Option CacheControl)
  | image (url : List Char)
deriving DecidableEq, Repr

/-- A message's `content`: a plain string or a part array. -/
inductive MsgContent where
  | str (s : List Char)
  | parts (ps : List CPart)
deriving DecidableEq, Repr

/-- A chat message as the transform sees it. -/
structure Message where
  role : String
  content : MsgContent
deriving DecidableEq, Repr

/-- `MAX_CACHE_BREAKPOINTS` of the source. -/
def MAX_CACHE_BREAKPOINTS : Nat := 4

/-- `estimateTokens`: `Math.ceil(text.length / 4)`. -/
def estimateTokens (text : List Char) : Nat := (text.length + 3) / 4

/-- The model families of `detectModelFamily`. -/
inductive ModelFamily where
  | anthropic | gemini | openai | grok | deepseek | other
deriving DecidableEq, Repr

/-- `containsL s p` models JavaScript `s.includes(p)`. -/
def containsL : List Char → List Char → Bool
  | [], p => startsWithL p []
  | c :: rest, p => startsWithL p (c :: rest) || containsL rest p

/-- Models the regular-expression test `/^o\d/.test(m)`. -/
def startsODigit : List Char → Bool
  | 'o' :: d :: _ => d.isDigit
  | _ => false

/-- `detectModelFamily`, keyed on the lowercased model identifier. -/
def detectModelFamily (model : List Char) : ModelFamily :=
  let m := lowerL model
  if containsL m "claude".data || startsWithL "anthropic/".data m then .anthropic
  else if containsL m "gemini".data || startsWithL "google/".data m then .gemini
  else if containsL m "gpt".data || startsWithL "openai/".data m || startsODigit m then .openai
  else if containsL m "grok".data || startsWithL "x-ai/".data m then .grok
  else if containsL m "deepseek".data then .deepseek
  else .other

/-- `getCacheTokenThreshold`: 4096 for the anthropic and gemini families;
`none` stands for `Number.POSITIVE_INFINITY` (no finite estimate reaches
it). -/
def getCacheTokenThreshold (model : List Char) : Option Nat :=
  match detectModelFamily model with
  | .anthropic => some 4096
  | .gemini => some 4096
  | _ => none

/-- `estimateTokens(text) >= threshold` with infinity always false. -/
def geThreshold (n : Nat) : Option Nat → Bool
  | some t => t ≤ n
  | none => false

/-- `shouldInsertCacheControl`: the family is anthropic or gemini. -/
def shouldInsertCacheControl (model : List Char) : Bool :=
  match detectModelFamily model with
  | .anthropic => true
  | .gemini => true
  | _ => false

/-- The source's backwards `for` loop over a part array: annotate the first
text part (scanning from the given end-first order) whose estimate reaches
the threshold, then `break`.  Call it on the reversed array.  Returns the
updated (still reversed) array and whether a part was annotated. -/
def annotateFirstText (thr : Option Nat) : List CPart → List CPart × Bool
  | [] => ([], false)
  | p :: ps =>
    match p with
    | CPart.text t _ =>
      if geThreshold (estimateTokens t) thr then
        (CPart.text t (some ephemeralCC) :: ps, true)
      else
        let r := annotateFirstText thr ps
        (p :: r.1, r.2)
    | _ =>
      let r := annotateFirstText thr ps
      (p :: r.1, r.2)

/-- The body of the `messages.map` callback, threading the captured
`remaining` counter. -/
def transformMessage (thr : Option Nat) (remaining : Nat) (m : Message) :
    Message × Nat :=
  if remaining = 0 then (m, remaining)
  else
    match m.content with
    | MsgContent.parts ps =>
      let r := annotateFirstText thr ps.reverse
      if r.2 then
        ({ m with content := MsgContent.parts r.1.reverse }, remaining - 1)
      else ({ m with content := MsgContent.parts ps }, remaining)
    | MsgContent.str s =>
      if geThreshold (estimateTokens s) thr then
        ({ m with content := MsgContent.parts [CPart.text s (some ephemeralCC)] },
          remaining - 1)
      else (m, remaining)

/-- `messages.map(...)` with the mutable `remaining` made explicit. -/
def transformMessagesGo (thr : Option Nat) : Nat → List Message → List Message
  | _, [] => []
  | remaining, m :: ms =>
    let r := transformMessage thr remaining m
    r.1 :: transformMessagesGo thr r.2 ms

/-- `transformMessagesForCaching`. -/
def transformMessagesForCaching (messages : List Message) (model : List Char) :
    List Message :=
  if shouldInsertCacheControl model then
    transformMessagesGo (getCacheTokenThreshold model) MAX_CACHE_BREAKPOINTS messages
  else messages

/-- A part carrying a cache breakpoint. -/
def partAnnotated : CPart → Bool
  | CPart.text _ (some _) => true
  | _ => false

/-- How many cache-breakpoint segments a message carries. -/
def msgAnnotatedCount (m : Message) : Nat :=
  match m.content with
  | MsgContent.str _ => 0
  | MsgContent.parts ps => (ps.filter partAnnotated).length

/-- Cache breakpoints across the whole request. -/
def totalAnnotated (ms : List Message) : Nat :=
  (ms.map msgAnnotatedCount).sum

/-- A text part whose estimate reaches the threshold. -/
def eligiblePart (thr : Option Nat) : CPart → Bool
  | CPart.text t _ => geThreshold (estimateTokens t) thr
  | _ => false

/-- A message with an eligible text (string content or some part). -/
def msgEligible (thr : Option Nat) (m : Message) : Bool :=
  match m.content with
  | MsgContent.str s => geThreshold (estimateTokens s) thr
  | MsgContent.parts ps => ps.any (eligiblePart thr)

/-- Number of eligible messages of a request. -/
def countEligible (thr : Option Nat) (ms : List Message) : Nat :=
  (ms.filter (msgEligible thr)).length

/-- Erase a part's annotation. -/
def stripPart : CPart → CPart
  | CPart.text t _ => CPart.text t none
  | p => p

/-- A content as a part list, a string standing for one unannotated text
part of the same text. -/
def contentParts : MsgContent → List CPart
  | MsgContent.str s => [CPart.text s none]
  | MsgContent.parts ps => ps

/-- The transform leaves everything but annotations intact: same role, same
parts and texts up to `cache_control`, and a string content is either kept
or wrapped as the single annotated text part of the identical text. -/
def preservesMsg (m m2 : Message) : Prop :=
  m2.role = m.role
  ∧ (contentParts m2.content).map stripPart = (contentParts m.content).map stripPart
  ∧ (∀ s, m.content = MsgContent.str s →
      m2.content = MsgContent.str s ∨
      m2.content = MsgContent.parts [CPart.text s (some ephemeralCC)])

lemma annotateFirstText_strip (thr : Option Nat) :
    ∀ l : List CPart,
      (annotateFirstText thr l).1.map stripPart = l.map stripPart := by
  intro l
  induction l with
  | nil => rfl
  | cons p ps ih =>
    cases p with
    | text t cc =>
      by_cases hg : geThreshold (estimateTokens t) thr = true
      · simp [annotateFirstText, hg, stripPart]
      · simp [annotateFirstText, hg, stripPart, ih]
    | image u => simp [annotateFirstText, stripPart, ih]

lemma preservesMsg_refl (m : Message) : preservesMsg m m := by
  refine ⟨rfl, rfl, ?_⟩
  intro s hs
  exact Or.inl hs

lemma transformMessage_preserves (thr : Option Nat) (r : Nat) (m : Message) :
    preservesMsg m (transformMessage thr r m).1 := by
  by_cases hr : r = 0
  · simp [transformMessage, hr, preservesMsg_refl]
  · rcases hm : m.content with s | ps
    · by_cases hg : geThreshold (estimateTokens s) thr = true
      · refine ⟨by simp [transformMessage, hr, hm, hg], ?_, ?_⟩
        · simp [transformMessage, hr, hm, hg, contentParts, stripPart]
        · intro s2 hs2
          rw [hm] at hs2
          cases hs2
          simp [transformMessage, hr, hm, hg]
      · simp [transformMessage, hr, hm, hg, preservesMsg_refl]
    · have h2 : (∀ s, m.content = MsgContent.str s →
          (transformMessage thr r m).1.content = MsgContent.str s ∨
          (transformMessage thr r m).1.content =
            MsgContent.parts [CPart.text s (some ephemeralCC)]) := by
        intro s hs
        rw [hm] at hs
        cases hs
      by_cases hf : (annotateFirstText thr ps.reverse).2 = true
      · refine ⟨by simp [transformMessage, hr, hm, hf], ?_, h2⟩
        simp only [transformMessage, hr, hm, hf]
        simp [contentParts, List.map_reverse, annotateFirstText_strip]
      · refine ⟨by simp [transformMessage, hr, hm, hf], ?_, h2⟩
        simp [transformMessage, hr, hm, hf, contentParts]

/-- C9: `transformMessagesForCaching` preserves the message list's length
and order, every role, and every text: the output is related message-wise to
the input by `preservesMsg` (identical parts and texts up to `cache_control`;
a string content is kept or wrapped as a single annotated text part of the
identical text). -/
theorem transform_preserves_messages (msgs : List Message) (model : List Char) :
    List.Forall₂ preservesMsg msgs (transformMessagesForCaching msgs model)
    ∧ (transformMessagesForCaching msgs model).length = msgs.length := by
  have hgo : ∀ (r : Nat) (ms : List Message),
      List.Forall₂ preservesMsg ms (transformMessagesGo
        (getCacheTokenThreshold model) r ms) := by
    intro r ms
    induction ms generalizing r with
    | nil => exact List.Forall₂.nil
    | cons m ms ih =>
      exact List.Forall₂.cons (transformMessage_preserves _ r m) (ih _)
  have hall : List.Forall₂ preservesMsg msgs (transformMessagesForCaching msgs model) := by
    by_cases hc : shouldInsertCacheControl model = true
    · simpa [transformMessagesForCaching, hc] using
        hgo MAX_CACHE_BREAKPOINTS msgs
    · simp only [transformMessagesForCaching, hc, if_false, Bool.false_eq_true]
      exact List.forall₂_same.2 (fun m _ => preservesMsg_refl m)
  exact ⟨hall, (List.Forall₂.length_eq hall).symm⟩

lemma annotateFirstText_flag (thr : Option Nat) :
    ∀ l : List CPart, (annotateFirstText thr l).2 = l.any (eligiblePart thr) := by
  intro l
  induction l with
  | nil => rfl
  | cons p ps ih =>
    cases p with
    | text t cc =>
      by_cases hg : geThreshold (estimateTokens t) thr = true
      · simp [annotateFirstText, hg, eligiblePart]
      · simp [annotateFirstText, hg, eligiblePart, ih]
    | image u => simp [annotateFirstText, eligiblePart, ih]

lemma annotateFirstText_id_of_not (thr : Option Nat) :
    ∀ l : List CPart, (annotateFirstText thr l).2 = false →
      (annotateFirstText thr l).1 = l := by
  intro l
  induction l with
  | nil => intro _; rfl
  | cons p ps ih =>
    intro h
    cases p with
    | text t cc =>
      by_cases hg : geThreshold (estimateTokens t) thr = true
      · simp [annotateFirstText, hg] at h
      · simp only [annotateFirstText, hg, Bool.false_eq_true, if_false] at h ⊢
        simp [ih h]
    | image u =>
      simp only [annotateFirstText] at h ⊢
      simp [ih h]

lemma annotateFirstText_count (thr : Option Nat) :
    ∀ l : List CPart, (l.filter partAnnotated).length = 0 →
      (annotateFirstText thr l).2 = true →
      ((annotateFirstText thr l).1.filter partAnnotated).length = 1 := by
  intro l
  induction l with
  | nil => intro _ h; simp [annotateFirstText] at h
  | cons p ps ih =>
    intro hclean hflag
    have hp : partAnnotated p = false := by
      by_contra hp
      simp only [Bool.not_eq_false] at hp
      simp [List.filter_cons, hp] at hclean
    have hps : (ps.filter partAnnotated).length = 0 := by
      simpa [List.filter_cons, hp] using hclean
    cases p with
    | text t cc =>
      by_cases hg : geThreshold (estimateTokens t) thr = true
      · simp [annotateFirstText, hg, List.filter_cons, partAnnotated, hps]
      · simp only [annotateFirstText, hg, Bool.false_eq_true, if_false] at hflag ⊢
        simp only [List.filter_cons, hp, Bool.false_eq_true, if_false]
        exact ih hps hflag
    | image u =>
      simp only [annotateFirstText] at hflag ⊢
      simp only [List.filter_cons, hp, Bool.false_eq_true, if_false]
      exact ih hps hflag

lemma annotateFirstText_spec (thr : Option Nat) :
    ∀ l : List CPart, (annotateFirstText thr l).2 = true →
      ∃ a t cc b, l = a ++ CPart.text t cc :: b
        ∧ (∀ p ∈ a, eligiblePart thr p = false)
        ∧ eligiblePart thr (CPart.text t cc) = true
        ∧ (annotateFirstText thr l).1 = a ++ CPart.text t (some ephemeralCC) :: b := by
  intro l
  induction l with
  | nil => intro h; simp [annotateFirstText] at h
  | cons p ps ih =>
    intro hflag
    cases p with
    | text t cc =>
      by_cases hg : geThreshold (estimateTokens t) thr = true
      · exact ⟨[], t, cc, ps, by simp, by simp, by simp [eligiblePart, hg],
          by simp [annotateFirstText, hg]⟩
      · simp only [annotateFirstText, hg, Bool.false_eq_true, if_false] at hflag
        obtain ⟨a, t2, cc2, b, hl, ha, he, hres⟩ := ih hflag
        refine ⟨CPart.text t cc :: a, t2, cc2, b, by simp [hl], ?_,
          he, ?_⟩
        · intro q hq
          rcases List.mem_cons.1 hq with hq | hq
          · subst hq; simp [eligiblePart, hg]
          · exact ha q hq
        · simp only [annotateFirstText, hg, Bool.false_eq_true, if_false]
          simp [hres]
    | image u =>
      simp only [annotateFirstText] at hflag
      obtain ⟨a, t2, cc2, b, hl, ha, he, hres⟩ := ih hflag
      refine ⟨CPart.image u :: a, t2, cc2, b, by simp [hl], ?_, he, ?_⟩
      · intro q hq
        rcases List.mem_cons.1 hq with hq | hq
        · subst hq; simp [eligiblePart]
        · exact ha q hq
      · simp only [annotateFirstText]
        simp [hres]

lemma totalAnnotated_cons (m : Message) (ms : List Message) :
    totalAnnotated (m :: ms) = msgAnnotatedCount m + totalAnnotated ms := by
  simp [totalAnnotated]

lemma countEligible_cons (thr : Option Nat) (m : Message) (ms : List Message) :
    countEligible thr (m :: ms) =
      (if msgEligible thr m then 1 else 0) + countEligible thr ms := by
  by_cases h : msgEligible thr m = true
  · simp [countEligible, List.filter_cons, h]
    omega
  · simp [countEligible, List.filter_cons, h]

lemma transformMessage_zero (thr : Option Nat) (m : Message) :
    transformMessage thr 0 m = (m, 0) := by
  simp [transformMessage]

lemma transformMessage_facts (thr : Option Nat) (r : Nat) (m : Message)
    (hm : msgAnnotatedCount m = 0) (hr : 0 < r) :
    msgAnnotatedCount (transformMessage thr r m).1 =
      (if msgEligible thr m then 1 else 0)
    ∧ (transformMessage thr r m).2 =
      r - (if msgEligible thr m then 1 else 0) := by
  have hr0 : ¬(r = 0) := by omega
  rcases hc : m.content with s | ps
  · by_cases hg : geThreshold (estimateTokens s) thr = true
    · constructor
      · simp [transformMessage, hr0, hc, hg, msgAnnotatedCount, msgEligible,
          partAnnotated, List.filter_cons]
      · simp [transformMessage, hr0, hc, hg, msgEligible]
    · constructor
      · have : (transformMessage thr r m).1 = m := by
          simp [transformMessage, hr0, hc, hg]
        simp [this, hm, msgEligible, hc, hg]
      · simp [transformMessage, hr0, hc, hg, msgEligible]
  · have hclean : (ps.filter partAnnotated).length = 0 := by
      simpa [msgAnnotatedCount, hc] using hm
    have hcleanrev : (ps.reverse.filter partAnnotated).length = 0 := by
      rw [List.filter_reverse, List.length_reverse]
      exact hclean
    have hflag := annotateFirstText_flag thr ps.reverse
    have hel : msgEligible thr m = ps.any (eligiblePart thr) := by
      simp [msgEligible, hc]
    by_cases hf : (annotateFirstText thr ps.reverse).2 = true
    · have hany : ps.any (eligiblePart thr) = true := by
        rw [hf] at hflag
        simpa [List.any_reverse] using hflag.symm
      constructor
      · have h1 := annotateFirstText_count thr ps.reverse hcleanrev hf
        simp only [transformMessage, hr0, hc, hf, if_true, if_pos,
          Bool.false_eq_true, if_false]
        simp only [msgAnnotatedCount, List.filter_reverse, List.length_reverse]
        simp [hel, hany, h1]
      · simp [transformMessage, hr0, hc, hf, hel, hany]
    · have hany : ps.any (eligiblePart thr) = false := by
        simp only [Bool.not_eq_true] at hf
        rw [hf] at hflag
        simpa [List.any_reverse] using hflag.symm
      constructor
      · simp only [transformMessage, hr0, hc, hf]
        simp [msgAnnotatedCount, hclean, hel, hany, hf]
      · simp [transformMessage, hr0, hc, hf, hel, hany]

lemma transformGo_facts (thr : Option Nat) :
    ∀ (msgs : List Message) (r : Nat),
      (∀ m ∈ msgs, msgAnnotatedCount m = 0) →
      totalAnnotated (transformMessagesGo thr r msgs) ≤ r
      ∧ (∀ m2 ∈ transformMessagesGo thr r msgs, msgAnnotatedCount m2 ≤ 1)
      ∧ (countEligible thr msgs ≤ r →
          List.Forall₂ (fun m m2 => msgAnnotatedCount m2 =
            if msgEligible thr m then 1 else 0)
            msgs (transformMessagesGo thr r msgs)) := by
  intro msgs
  induction msgs with
  | nil =>
    intro r _
    refine ⟨by simp [transformMessagesGo, totalAnnotated], by simp [transformMessagesGo], ?_⟩
    intro _
    exact List.Forall₂.nil
  | cons m ms ih =>
    intro r hclean
    have hm : msgAnnotatedCount m = 0 := hclean m (List.mem_cons_self m ms)
    have hms : ∀ x ∈ ms, msgAnnotatedCount x = 0 :=
      fun x hx => hclean x (List.mem_cons_of_mem m hx)
    by_cases hr : r = 0
    · subst hr
      obtain ⟨ih1, ih2, ih3⟩ := ih 0 hms
      have hstep := transformMessage_zero thr m
      refine ⟨?_, ?_, ?_⟩
      · simp only [transformMessagesGo, hstep, totalAnnotated_cons, hm]
        simpa using ih1
      · intro m2 hm2
        simp only [transformMessagesGo, hstep] at hm2
        rcases List.mem_cons.1 hm2 with hm2 | hm2
        · subst hm2; omega
        · exact ih2 m2 hm2
      · intro hce
        rw [countEligible_cons] at hce
        have hnel : msgEligible thr m = false := by
          by_contra hx
          simp only [Bool.not_eq_false] at hx
          rw [hx] at hce
          simp at hce
        have hce2 : countEligible thr ms ≤ 0 := by
          rw [hnel] at hce
          simpa using hce
        simp only [transformMessagesGo, hstep]
        exact List.Forall₂.cons (by simp [hnel, hm]) (ih3 hce2)
    · have hrpos : 0 < r := Nat.pos_of_ne_zero hr
      obtain ⟨hcount, hrem⟩ := transformMessage_facts thr r m hm hrpos
      obtain ⟨ih1, ih2, ih3⟩ :=
        ih (r - (if msgEligible thr m then 1 else 0)) hms
      rw [← hrem] at ih1 ih2 ih3
      refine ⟨?_, ?_, ?_⟩
      · simp only [transformMessagesGo, totalAnnotated_cons, hcount]
        by_cases hel : msgEligible thr m = true
        all_goals simp only [hel, if_true, if_false, Bool.false_eq_true] at *
        all_goals omega
      · intro m2 hm2
        simp only [transformMessagesGo] at hm2
        rcases List.mem_cons.1 hm2 with hm2 | hm2
        · subst hm2
          rw [hcount]
          by_cases hel : msgEligible thr m = true <;> simp [hel]
        · exact ih2 m2 hm2
      · intro hce
        rw [countEligible_cons] at hce
        have hce2 : countEligible thr ms ≤ (transformMessage thr r m).2 := by
          rw [hrem]
          by_cases hel : msgEligible thr m = true
          all_goals simp only [hel, if_true, if_false, Bool.false_eq_true] at *
          all_goals omega
        simp only [transformMessagesGo]
        exact List.Forall₂.cons hcount (ih3 hce2)

/-- When the transform put exactly one breakpoint into a multipart message,
it sits on the message's **last** eligible segment: the parts after it are
all below the threshold, and everything else is unchanged. -/
def lastEligibleProp (thr : Option Nat) (m m2 : Message) : Prop :=
  ∀ ps, m.content = MsgContent.parts ps → msgAnnotatedCount m2 = 1 →
    ∃ a t cc b, ps = a ++ CPart.text t cc :: b
      ∧ eligiblePart thr (CPart.text t cc) = true
      ∧ (∀ p ∈ b, eligiblePart thr p = false)
      ∧ m2.content = MsgContent.parts (a ++ CPart.text t (some ephemeralCC) :: b)

lemma transformMessage_lastEligible (thr : Option Nat) (r : Nat) (m : Message)
    (hm : msgAnnotatedCount m = 0) :
    lastEligibleProp thr m (transformMessage thr r m).1 := by
  intro ps hps hcnt
  by_cases hr : r = 0
  · subst hr
    rw [transformMessage_zero] at hcnt
    simp only [hm] at hcnt
    exact absurd hcnt (by decide)
  · by_cases hf : (annotateFirstText thr ps.reverse).2 = true
    · obtain ⟨a, t, cc, b, hl, ha, he, hres⟩ :=
        annotateFirstText_spec thr ps.reverse hf
      have hps2 : ps = b.reverse ++ CPart.text t cc :: a.reverse := by
        have h := congrArg List.reverse hl
        simp only [List.reverse_reverse, List.reverse_append,
          List.reverse_cons] at h
        simpa [List.append_assoc] using h
      refine ⟨b.reverse, t, cc, a.reverse, hps2, he, ?_, ?_⟩
      · intro p hp
        exact ha p (by simpa using hp)
      · have h2 : (transformMessage thr r m).1.content =
            MsgContent.parts (annotateFirstText thr ps.reverse).1.reverse := by
          simp [transformMessage, hr, hps, hf]
        rw [h2, hres]
        simp [List.reverse_append, List.append_assoc]
    · have h2 : (transformMessage thr r m).1.content = MsgContent.parts ps := by
        simp [transformMessage, hr, hps, hf]
      have h0 : msgAnnotatedCount (transformMessage thr r m).1 = 0 := by
        have hclean : (ps.filter partAnnotated).length = 0 := by
          simpa [msgAnnotatedCount, hps] using hm
        simp [msgAnnotatedCount, h2, hclean]
      rw [h0] at hcnt
      exact absurd hcnt (by decide)

lemma transformGo_lastEligible (thr : Option Nat) :
    ∀ (msgs : List Message) (r : Nat),
      (∀ m ∈ msgs, msgAnnotatedCount m = 0) →
      List.Forall₂ (lastEligibleProp thr) msgs
        (transformMessagesGo thr r msgs) := by
  intro msgs
  induction msgs with
  | nil => intro r _; exact List.Forall₂.nil
  | cons m ms ih =>
    intro r hclean
    exact List.Forall₂.cons
      (transformMessage_lastEligible thr r m (hclean m (List.mem_cons_self m ms)))
      (ih _ (fun x hx => hclean x (List.mem_cons_of_mem m hx)))

/-- C7 (amended): for a cache-capable model (anthropic or gemini family) and
a request without pre-existing annotations, the transform adds at most one
breakpoint per message and at most `MAX_CACHE_BREAKPOINTS = 4` across the
request; as long as at most 4 messages are eligible, every eligible message
gets exactly one breakpoint (and ineligible ones none); a breakpoint placed
in a multipart message sits on its last eligible segment; and for a model
that is not cache-capable the message list is returned untouched, so no
`cache_control` appears anywhere. -/
theorem cache_annotation_budgeted (model : List Char) (msgs : List Message)
    (hcap : shouldInsertCacheControl model = true)
    (hclean : ∀ m ∈ msgs, msgAnnotatedCount m = 0) :
    totalAnnotated (transformMessagesForCaching msgs model) ≤ MAX_CACHE_BREAKPOINTS
    ∧ (∀ m2 ∈ transformMessagesForCaching msgs model, msgAnnotatedCount m2 ≤ 1)
    ∧ (countEligible (getCacheTokenThreshold model) msgs ≤ MAX_CACHE_BREAKPOINTS →
        List.Forall₂ (fun m m2 => msgAnnotatedCount m2 =
          if msgEligible (getCacheTokenThreshold model) m then 1 else 0)
          msgs (transformMessagesForCaching msgs model))
    ∧ List.Forall₂ (lastEligibleProp (getCacheTokenThreshold model))
        msgs (transformMessagesForCaching msgs model)
    ∧ (∀ model2, shouldInsertCacheControl model2 = false →
        transformMessagesForCaching msgs model2 = msgs) := by
  have hunfold : transformMessagesForCaching msgs model =
      transformMessagesGo (getCacheTokenThreshold model)
        MAX_CACHE_BREAKPOINTS msgs := by
    simp [transformMessagesForCaching, hcap]
  obtain ⟨h1, h2, h3⟩ :=
    transformGo_facts (getCacheTokenThreshold model) msgs MAX_CACHE_BREAKPOINTS hclean
  refine ⟨by rw [hunfold]; exact h1, by rw [hunfold]; exact h2,
    by rw [hunfold]; exact h3, ?_, ?_⟩
  · rw [hunfold]
    exact transformGo_lastEligible _ msgs MAX_CACHE_BREAKPOINTS hclean
  · intro model2 h
    simp [transformMessagesForCaching, h]

/-- Witness for C7 at a concrete input: `anthropic/claude-sonnet-4` is
cache-capable and a one-message request stays within the budget. -/
theorem cache_annotation_budgeted_witness :
    shouldInsertCacheControl "anthropic/claude-sonnet-4".data = true
    ∧ totalAnnotated (transformMessagesForCaching
        [⟨"user", MsgContent.str []⟩] "anthropic/claude-sonnet-4".data) ≤
        MAX_CACHE_BREAKPOINTS :=
  ⟨by decide,
   (cache_annotation_budgeted "anthropic/claude-sonnet-4".data
     [⟨"user", MsgContent.str []⟩] (by decide) (by decide)).1⟩

/-- A text of 16384 characters: `estimateTokens` gives 4096, exactly the
anthropic/gemini threshold. -/
def bigText : List Char := List.replicate 16384 'a'

/-- A message whose string content is eligible for a cache breakpoint. -/
def bigMsg : Message := ⟨"user", MsgContent.str bigText⟩

/-- Counterexample for C7: with the cache-capable model
`anthropic/claude-sonnet-4` and five messages that are all eligible, only
the first four receive a breakpoint — the fifth eligible message gets none,
refuting `exactly one annotated segment for every eligible message`. -/
theorem cache_fifth_eligible_message_unannotated :
    shouldInsertCacheControl "anthropic/claude-sonnet-4".data = true
    ∧ msgEligible (getCacheTokenThreshold "anthropic/claude-sonnet-4".data)
        bigMsg = true
    ∧ (transformMessagesForCaching (List.replicate 5 bigMsg)
        "anthropic/claude-sonnet-4".data).map msgAnnotatedCount =
      [1, 1, 1, 1, 0] := by
  have hthr : getCacheTokenThreshold "anthropic/claude-sonnet-4".data =
      some 4096 := by decide
  have hcap : shouldInsertCacheControl "anthropic/claude-sonnet-4".data = true := by
    decide
  have hlen : bigText.length = 16384 := by
    rw [bigText, List.length_replicate]
  have hest : estimateTokens bigText = 4096 := by
    show (bigText.length + 3) / 4 = 4096
    rw [hlen]
  have hel : geThreshold (estimateTokens bigText) (some 4096) = true := by
    simp [geThreshold, hest]
  have hstep : ∀ r : Nat, ¬(r = 0) →
      transformMessage (some 4096) r bigMsg =
        (⟨"user", MsgContent.parts [CPart.text bigText (some ephemeralCC)]⟩,
          r - 1) := by
    intro r hr
    simp [transformMessage, hr, bigMsg, hel]
  have e4 := hstep 4 (by norm_num)
  have e3 := hstep 3 (by norm_num)
  have e2 := hstep 2 (by norm_num)
  have e1 := hstep 1 (by norm_num)
  refine ⟨hcap, ?_, ?_⟩
  · rw [hthr]
    exact hel
  · rw [show (List.replicate 5 bigMsg) =
      [bigMsg, bigMsg, bigMsg, bigMsg, bigMsg] from rfl]
    simp only [transformMessagesForCaching, hcap, if_true, hthr,
      MAX_CACHE_BREAKPOINTS, transformMessagesGo, e4, e3, e2, e1]
    norm_num [transformMessage_zero, msgAnnotatedCount, bigMsg, partAnnotated,
      List.filter_cons]
